import Mathlib

/-!
Verification development for the MSNoise cross-correlation step
(src/msnoise/s03compute_no_rotation.py).

The per-window pipeline of `main` is embedded as executable Lean
definitions over rational samples.  Numeric steps performed by external
libraries (obspy slicing and gap reports, matplotlib psd, scipy fft,
and the helpers `whiten2` / `myCorr2` from move2obspy, which are not part
of the sources here) are modelled at the level of their documented
contracts; such definitions carry a doc comment starting with
"Modelled from the spec".  Everything else is translated line by line
from the source.
-/

set_option maxHeartbeats 1000000

/- The Batteries rational arithmetic is marked irreducible, which blocks
the definitional evaluation used by `decide` and `rfl` on the concrete
inputs below; restore the default reducibility (the kernel ignores
reducibility attributes, so proofs are unaffected). -/
set_option allowUnsafeReducibility true
attribute [semireducible] Rat.add Rat.mul Rat.sub Rat.inv Rat.ofScientific

namespace MSNoise

/-- Identifier of one trace: network, station, location, channel codes. -/
structure TraceId where
  net : String
  sta : String
  loc : String
  chan : String
deriving DecidableEq, Repr

/-- Component code of a channel: the last letter of the channel code
(the expression c1[-1] in the source). -/
def TraceId.comp (t : TraceId) : Char := t.chan.toList.getLastD ' '

/-- Default trace id used only as a `getD` fallback. -/
def dId : TraceId := ⟨"", "", "", ""⟩

/-- The net.sta key used by channel_index (source line 308). -/
def TraceId.netsta (t : TraceId) : String := t.net ++ "." ++ t.sta

/-- One trace inside a window: its id and its samples (modelled as
rationals). -/
structure Trace where
  id : TraceId
  data : List ℚ
deriving DecidableEq, Repr

/-- Number of samples of a trace (tr.stats.npts). -/
def Trace.npts (tr : Trace) : Nat := tr.data.length

/-- Default trace used only as a `headD` fallback. -/
def dTr : Trace := ⟨dId, []⟩

/-- The three values of the whitening configuration parameter. -/
inductive WhiteningMode where
  | modeNone
  | modeAll
  | componentsDifferent
deriving DecidableEq, Repr

/-- Modelled from the spec: the whitening decision implemented by `whiten2`
(msnoise/move2obspy.py, a file of this repository that is not under src/);
the call site at lines 367-370 passes params.whitening through together
with the spectra of all channels.  Per channel pair being correlated:
mode None never whitens, mode All whitens both channels unless the pair is
the auto-correlation of a channel with itself, mode Components-different
whitens exactly when the two component codes differ. -/
def whitenPair (m : WhiteningMode) (c1 c2 : TraceId) : Bool :=
  match m with
  | .modeNone => false
  | .modeAll => decide (c1 ≠ c2)
  | .componentsDifferent => decide (c1.comp ≠ c2.comp)

/-! ## Amplitude normalisation (source lines 285-293) -/

/-- Arithmetic mean of a list (np.mean); 0 for the empty list by the Lean
convention for division by zero. -/
def lmean (l : List ℚ) : ℚ := l.sum / l.length

/-- Population variance, i.e. the square of np.std with ddof = 0. -/
def lvar (l : List ℚ) : ℚ := ((l.map (fun x => (x - lmean l) ^ 2)).sum) / l.length

/-- Mean of squares, i.e. the square of the RMS. -/
def lmeanSq (l : List ℚ) : ℚ := ((l.map (fun x => x ^ 2)).sum) / l.length

/-- scipy.stats.scoreatpercentile with the default fraction interpolation:
sort ascending, take index per/100*(n-1) and interpolate linearly between
the two neighbouring order statistics. -/
def scoreatpercentile (data : List ℚ) (per : ℚ) : ℚ :=
  let s := data.insertionSort (· ≤ ·)
  let idx : ℚ := per / 100 * ((data.length : ℚ) - 1)
  let lo : Nat := (⌊idx⌋).toNat
  s.getD lo 0 + (s.getD (lo + 1) 0 - s.getD lo 0) * (idx - (⌊idx⌋ : ℚ))

/-- The samples kept by np.where((data >= imin) & (data <= imax)) with
imin, imax = scoreatpercentile(data, [1, 99]) (source lines 289-291):
only their standard deviation is used by the source, so the sublist of
in-band samples is recorded rather than the index array. -/
def bandSamples (data : List ℚ) : List ℚ :=
  let imin := scoreatpercentile data 1
  let imax := scoreatpercentile data 99
  data.filter (fun x => decide (imin ≤ x) && decide (x ≤ imax))

/-- np.clip(x, -t, t). -/
def clipTo (t x : ℚ) : ℚ := max (-t) (min x t)

/-- np.sign. -/
def qsign (x : ℚ) : ℚ := if x < 0 then -1 else if x = 0 then 0 else 1

/-- The amplitude normalisation of one trace (source lines 285-293).
The source computes the clip threshold as
tr.data[not_outliers].std() * params.windsorizing; np.std is the square
root of `lvar`, which is irrational in general, so the threshold is
passed here as `t`, pinned in the theorems by 0 ≤ t and
t ^ 2 = w ^ 2 * lvar (bandSamples data). -/
def windsorize (w t : ℚ) (data : List ℚ) : List ℚ :=
  if w = -1 then data.map qsign
  else if w ≠ 0 then data.map (clipTo t)
  else data

/-! ## Horizontal-component spectrum pooling (source lines 300-329) -/

/-- The index stored by channel_index for a given net.sta key and component
letter: Python dict assignment keeps the last write, i.e. the largest index
of `names` whose net.sta is `ns` and whose component letter is `c`
(source lines 306-311). -/
def lastCompIdx (names : List TraceId) (ns : String) (c : Char) : Option Nat :=
  ((List.range names.length).filter
    (fun i => decide ((names.getD i dId).netsta = ns) &&
              decide ((names.getD i dId).comp = c))).getLast?

/-- Element-wise mean of two spectra (psds with the two rows selected, then
mean(axis=0), source line 326). -/
def specMean (a b : List ℚ) : List ℚ := List.zipWith (fun x y => (x + y) / 2) a b

/-- Pooling step for one station: overwrite rows `ie` and `iN` of `ps` with
their element-wise mean (source lines 326-328). -/
def poolStation (ps : List (List ℚ)) (ie iN : Nat) : List (List ℚ) :=
  let mm := specMean (ps.getD ie []) (ps.getD iN [])
  (ps.set ie mm).set iN mm

/-- The body of the loop over channel_index (source lines 320-329). -/
def poolStep (names : List TraceId) (ps : List (List ℚ)) (ns : String) :
    List (List ℚ) :=
  match lastCompIdx names ns 'E', lastCompIdx names ns 'N' with
  | some ie, some iN => poolStation ps ie iN
  | _, _ => ps

/-- Source lines 320-329: for every net.sta key having both an E and an N
entry in channel_index, replace both psd rows by their element-wise mean.
The iteration order over the station keys is immaterial because the index
sets touched by distinct stations are disjoint. -/
def poolPsds (names : List TraceId) (psds : List (List ℚ)) : List (List ℚ) :=
  ((names.map TraceId.netsta).dedup).foldl (poolStep names) psds

/-! ## Pair selection (source lines 337-349) -/

/-- itertools.combinations(l, 2), in iteration order. -/
def pairsTwo : List α → List (α × α)
  | [] => []
  | a :: t => (t.map (fun b => (a, b))) ++ pairsTwo t

/-- itertools.combinations_with_replacement(l, 2), in iteration order. -/
def pairsTwoR : List α → List (α × α)
  | [] => []
  | a :: t => ((a :: t).map (fun b => (a, b))) ++ pairsTwoR t

/-- The two-letter component string c1[-1] + c2[-1] (source line 345). -/
def compStr (u v : TraceId) : String := String.mk [u.comp, v.comp]

/-- The pair key net1.sta1_net2.sta2_comp (source line 348). -/
def pairKey (u v : TraceId) : String :=
  u.net ++ "." ++ u.sta ++ "_" ++ v.net ++ "." ++ v.sta ++ "_" ++ compStr u v

/-- Source lines 337-349: the pair index built for one window.  The iterator
is combinations_with_replacement when params.autocorr is set, otherwise
combinations; a pair is kept when its two-letter component string is among
params.components_to_compute, and is recorded with the key and the
positions names.index(sta1), names.index(sta2). -/
def pairIndex (autocorr : Bool) (comps : List String) (names : List TraceId) :
    List (String × Nat × Nat) :=
  (if autocorr then pairsTwoR names else pairsTwo names).filterMap
    (fun uv =>
      if compStr uv.1 uv.2 ∈ comps then
        some (pairKey uv.1 uv.2, names.indexOf uv.1, names.indexOf uv.2)
      else none)

/-! ## Correlation length (call site lines 375-380) -/

/-- The number of lag samples passed to myCorr2: np.ceil(maxlag / dt)
(source line 376). -/
def maxlagSamples (maxlag dt : ℚ) : Nat := (⌈maxlag / dt⌉).toNat

/-- Modelled from the spec: the lag extraction performed inside `myCorr2`
(msnoise/move2obspy.py, a file of this repository that is not under src/):
from the inverse transform of length nfft, the segment corresponding to
lags in [-maxlag, maxlag] is extracted, i.e. the centred slice of
2*m+1 samples around the zero-lag bin. -/
def extractLags (full : List ℚ) (m : Nat) : List ℚ :=
  (full.drop (full.length / 2 - m)).take (2 * m + 1)

/-! ## Window gap and length filtering (source lines 243-280) -/

/-- One entry of tmp.get_gaps(min_gap=0): the channel it belongs to and the
gap duration delta (gap[-2]); obspy is external, so the gap report is part
of the window input. -/
structure GapEntry where
  id : TraceId
  delta : ℚ
deriving DecidableEq, Repr

/-- One analysis window as handed to the loop body: its traces and the gap
report of obspy get_gaps for them. -/
structure Window where
  traces : List Trace
  gaps : List GapEntry
deriving DecidableEq, Repr

/-- Source lines 249-253: the channels_to_remove list, i.e. the ids of the
gap entries with positive delta (the test gap[-2] > 0). -/
def gappedIds (w : Window) : List TraceId :=
  (w.gaps.filter (fun g => decide (0 < g.delta))).map GapEntry.id

/-- Source lines 255-262: every trace whose id is listed in
channels_to_remove is removed from the window. -/
def removeGapped (w : Window) : List Trace :=
  w.traces.filter (fun tr => decide (tr.id ∉ gappedIds w))

/-- np.amax([tr.stats.npts for tr in tmp]) (source line 267). -/
def maxNpts (l : List Trace) : Nat := (l.map Trace.npts).foldl max 0

/-- The configuration parameters used by this step. -/
structure Params where
  goal_sampling_rate : ℚ
  maxlag : ℚ
  corr_duration : ℚ
  overlap : ℚ
  windsorizing : ℚ
  autocorr : Bool
  components_to_compute : List String
  whitening : WhiteningMode
  keep_days : Bool
deriving DecidableEq, Repr

/-- The working sample spacing dt = 1 / goal_sampling_rate (line 239). -/
def Params.dt (p : Params) : ℚ := 1 / p.goal_sampling_rate

/-- Source lines 249-280: drop gapped channels, skip the window when no
trace is left, skip it when the maximal sample count is at most
maxlag*sampling_rate*2+1, then drop the traces shorter than that maximum
and skip the window when nothing is left.  Returns none when the window is
skipped (a continue in the source). -/
def afterGapStage (p : Params) (w : Window) : Option (List Trace) :=
  let tmp := removeGapped w
  if tmp.isEmpty then none
  else
    let base := maxNpts tmp
    if (base : ℚ) ≤ p.maxlag * p.goal_sampling_rate * 2 + 1 then none
    else
      let tmp2 := tmp.filter (fun tr => tr.npts == base)
      if tmp2.isEmpty then none else some tmp2

/-! ## FFT length and frequency selection (source lines 282, 356-365) -/

/-- Divide out the factor p from n as long as it divides, with explicit
fuel (p is 2, 3 or 5 below, so fuel n is always enough). -/
def stripF : Nat → Nat → Nat → Nat
  | 0, n, _ => n
  | fuel + 1, n, p => if n % p == 0 && n / p > 0 then stripF fuel (n / p) p else n

/-- n is 5-smooth, i.e. a product of powers of 2, 3 and 5. -/
def isFastLen (n : Nat) : Bool :=
  n > 0 && stripF n (stripF n (stripF n n 2) 3) 5 == 1

/-- Linear search for the next 5-smooth number, with explicit fuel. -/
def nextFastLenAux : Nat → Nat → Nat
  | 0, k => k
  | fuel + 1, k => if isFastLen k then k else nextFastLenAux fuel (k + 1)

/-- scipy next_fast_len (source line 282): the smallest 5-smooth integer
that is at least n.  Fuel n+1 reaches the next power of two, which is
below 2n, hence always suffices. -/
def next_fast_len (n : Nat) : Nat := nextFastLenAux (n + 1) n

/-- Source lines 356-357: the indices of fftfreq(nfft, d=dt)[:nfft//2]
lying inside [low, high]; the i-th positive frequency is i/(nfft*dt). -/
def freqSel (nfft : Nat) (dt low high : ℚ) : List Nat :=
  (List.range (nfft / 2)).filter
    (fun i => decide (low ≤ (i : ℚ) / ((nfft : ℚ) * dt)) &&
              decide ((i : ℚ) / ((nfft : ℚ) * dt) ≤ high))

/-- One filter band row from the database (get_filters). -/
structure Filter where
  ref : Nat
  low : ℚ
  high : ℚ
deriving DecidableEq, Repr

/-- Modelled from the spec: the keys of the dict returned by `myCorr2`
(msnoise/move2obspy.py, not under src/): one correlation per entry of
pair_index, keyed by the pair id string (spec 4.6); Python dict keys keep
the first occurrence. -/
def myCorr2Keys (pairs : List (String × Nat × Nat)) : List String :=
  (pairs.map (fun e => e.1)).eraseDups

/-- What the loop body over one filter produces (source lines 351-386):
the apodisation bounds handed to whiten2 and the keys of the corr dict. -/
structure FilterResult where
  filterid : Nat
  lowA : Int
  highA : Int
  p1 : Nat
  p2 : Nat
  corrKeys : List String
deriving DecidableEq, Repr

/-- Source lines 351-380 for one filter: freq_sel and its apodisation
clamps, then the whiten2 and myCorr2 calls.  When freq_sel is empty the
source raises an IndexError at freq_sel[0] (line 358), modelled as an
error value that propagates out of the job loop. -/
def processFilterBand (p : Params) (nfft : Nat) (f : Filter)
    (pairs : List (String × Nat × Nat)) : Except String FilterResult :=
  let fs := freqSel nfft p.dt f.low f.high
  match fs with
  | [] => Except.error "IndexError: freq_sel is empty"
  | p1 :: _ =>
    let p2 := fs.getLastD p1
    let lowA : Int := if (p1 : Int) - 100 ≤ 0 then 1 else (p1 : Int) - 100
    let highA : Int :=
      if (p2 : Int) + 100 > (nfft : Int) / 2 then (nfft : Int) / 2
      else (p2 : Int) + 100
    Except.ok ⟨f.ref, lowA, highA, p1, p2, myCorr2Keys pairs⟩

/-- Sequential effectful map, written out as the Python for loop is: the
first raised error aborts the whole traversal. -/
def mapE (f : α → Except String β) : List α → Except String (List β)
  | [] => Except.ok []
  | a :: t =>
    match f a with
    | Except.error e => Except.error e
    | Except.ok b =>
      match mapE f t with
      | Except.error e => Except.error e
      | Except.ok bs => Except.ok (b :: bs)

/-- Everything one window contributes (source lines 243-387). -/
structure WindowResult where
  names : List TraceId
  pairs : List (String × Nat × Nat)
  filterResults : List FilterResult
deriving DecidableEq, Repr

/-- Source lines 243-387, one slide window: the gap/length stage, then the
pair index over the surviving names and the loop over the filters.
The numeric transformations between lines 283 and 330 (demean, windsorize,
taper, psd, pooling) act pointwise on the samples and change neither the
trace list nor the control flow; they are embedded separately
(`windsorize`, `poolPsds`, `whitenPair`, `extractLags`) and are therefore
not repeated in this control-flow model.  Returns ok none when the window
is skipped by a continue. -/
def processWindow (p : Params) (filters : List Filter) (w : Window) :
    Except String (Option WindowResult) :=
  match afterGapStage p w with
  | none => Except.ok none
  | some tmp =>
    let nfft := next_fast_len (tmp.headD dTr).npts
    let names := tmp.map Trace.id
    let pairs := pairIndex p.autocorr p.components_to_compute names
    match mapE (fun f => processFilterBand p nfft f pairs) filters with
    | Except.error e => Except.error e
    | Except.ok rs => Except.ok (some ⟨names, pairs, rs⟩)

/-! ## Day-level processing (source lines 195-431) -/

/-- Modelled from the spec: the WindowSlicer (spec 4.2), standing for the
external obspy Stream.slide call at line 243: start times advance by
corr_duration * (1 - overlap), each window spans corr_duration, partial
windows are not produced, and windows containing no channel data are
skipped.  The bundle traces all start at time 0 (the preprocessor returns
merged day-long traces), so the windows it produces carry no gap report. -/
def numWindows (dur cd step : ℚ) : Nat :=
  if dur < cd then 0 else (⌊(dur - cd) / step⌋).toNat + 1

/-- Modelled from the spec: the samples of one trace falling inside window
k, i.e. sample indices i with k*step ≤ i*dt ≤ k*step + corr_duration. -/
def sliceData (sr step cd : ℚ) (k : Nat) (data : List ℚ) : List ℚ :=
  let lo := (⌈(k : ℚ) * step * sr⌉).toNat
  let hi := (⌊((k : ℚ) * step + cd) * sr⌋).toNat
  (data.drop lo).take (hi + 1 - lo)

/-- Modelled from the spec: the window sequence of one day bundle
(spec 4.2); see `numWindows`. -/
def slideWindows (p : Params) (bundle : List Trace) : List Window :=
  let step := p.corr_duration * (1 - p.overlap)
  let dur := (maxNpts bundle : ℚ) * p.dt
  (List.range (numWindows dur p.corr_duration step)).filterMap
    (fun k =>
      let ts := bundle.filterMap (fun tr =>
        let d := sliceData p.goal_sampling_rate step p.corr_duration k tr.data
        if d.isEmpty then none else some ⟨tr.id, d⟩)
      if ts.isEmpty then none else some ⟨ts, []⟩)

/-- One claimed job row (ref, pair, day). -/
structure JobRef where
  day : String
  pair : String
  ref : Nat
deriving DecidableEq, Repr

/-- The externally observable outcome of one day batch: which CC jobs were
marked Done, which STACK jobs were enqueued Todo, and the (pair key,
filter id) keys of the daily stacks handed to add_corr. -/
structure DayOutcome where
  ccDone : List JobRef
  stackTodo : List JobRef
  dayStacks : List (String × Nat)
deriving DecidableEq, Repr

/-- Source lines 208-431 for one claimed batch of jobs.  An empty stream
(line 232) marks every job Done and continues; otherwise the slide windows
are processed in order (an uncaught exception propagates), the allcorr
keys are accumulated, the daily stacks are written when keep_days is set
(each accumulated key holds at least one window, so the stack loop skips
nothing), all jobs are marked Done and a STACK job is enqueued Todo per
pair (lines 423-426). -/
def processDay (p : Params) (filters : List Filter) (jobs : List JobRef)
    (bundle : List Trace) : Except String DayOutcome :=
  if bundle.isEmpty then
    Except.ok { ccDone := jobs, stackTodo := [], dayStacks := [] }
  else
    match mapE (processWindow p filters) (slideWindows p bundle) with
    | Except.error e => Except.error e
    | Except.ok rs =>
      let allcorrKeys :=
        (rs.flatMap (fun r =>
          match r with
          | none => []
          | some wr =>
            wr.filterResults.flatMap
              (fun fr => fr.corrKeys.map (fun k => (k, fr.filterid))))).eraseDups
      Except.ok
        { ccDone := jobs,
          stackTodo := jobs,
          dayStacks := if p.keep_days then allcorrKeys else [] }

/-- Source lines 195-431: one iteration of the while is_next_job loop.
When get_next_job returns no jobs the iteration continues with no effect
at all (lines 199-202). -/
def loopIter (p : Params) (filters : List Filter) (jobs : List JobRef)
    (bundle : List Trace) : Except String DayOutcome :=
  if jobs.isEmpty then Except.ok { ccDone := [], stackTodo := [], dayStacks := [] }
  else processDay p filters jobs bundle

/-- Source lines 170-433: the whole run.  When no filter is defined the
run exits before claiming any job (lines 180-182); otherwise the claimed
batches are processed in order and an uncaught exception aborts the run. -/
def runMain (p : Params) (filters : List Filter)
    (batches : List (List JobRef × List Trace)) :
    Except String (List DayOutcome) :=
  if filters.isEmpty then Except.error "NO FILTERS DEFINED, exiting"
  else mapE (fun b => loopIter p filters b.1 b.2) batches

/-! ## Auxiliary predicate used in the statement about abort conditions -/

/-- Every filter band selects at least one FFT bin for this window (when
the window survives the gap and length stage at all). -/
def windowBandsOk (p : Params) (filters : List Filter) (w : Window) : Bool :=
  match afterGapStage p w with
  | none => true
  | some tmp =>
    filters.all
      (fun f => !(freqSel (next_fast_len (tmp.headD dTr).npts) p.dt f.low f.high).isEmpty)

/-- The outcome the immediate not-enough-data branch produces (source lines
232-237): jobs marked Done, nothing else. -/
def immediateDone (jobs : List JobRef) : DayOutcome := ⟨jobs, [], []⟩

/-! ## Concrete instances used by witnesses and counterexamples -/

def c2P : Params := ⟨1, 1, 8, 0, 0, true, ["ZZ"], .modeAll, true⟩

def c2IdA : TraceId := ⟨"N", "SA", "00", "HHZ"⟩

def c2IdB : TraceId := ⟨"N", "SB", "00", "HHZ"⟩

def c2W : Window :=
  ⟨[⟨c2IdA, List.replicate 9 0⟩, ⟨c2IdB, List.replicate 9 0⟩], [⟨c2IdA, 2⟩]⟩

def c2WAllGap : Window := ⟨[⟨c2IdA, List.replicate 9 0⟩], [⟨c2IdA, 1⟩]⟩

def c2F : Filter := ⟨1, 1/10, 4/10⟩

def c3P : Params := ⟨1, 1, 8, 0, 0, false, ["ZZ"], .modeAll, true⟩

def c3TrA : Trace := ⟨⟨"N", "SA", "00", "HHZ"⟩, List.replicate 9 0⟩

def c3W : Window := ⟨[c3TrA, ⟨⟨"N", "SB", "00", "HHZ"⟩, List.replicate 8 0⟩], []⟩

def c4Data : List ℚ := [3, -3, 3, -3]

def c5Names : List TraceId :=
  [⟨"N", "S", "00", "HHE"⟩, ⟨"N", "S", "00", "HHN"⟩, ⟨"N", "S", "00", "HHZ"⟩]

def c5Psds : List (List ℚ) := [[1], [3], [5]]

def c6Names : List TraceId := [⟨"N", "S1", "00", "HHZ"⟩, ⟨"N", "S2", "00", "HHN"⟩]

def c8P : Params := ⟨1, 1, 8, 0, 0, false, ["ZZ"], .modeAll, true⟩

def c8Job : JobRef := ⟨"2020-01-01", "N.SA:N.SB", 1⟩

def c8Bundle : List Trace :=
  [⟨⟨"N", "SA", "00", "HHZ"⟩, List.replicate 16 0⟩,
   ⟨⟨"N", "SB", "00", "HHZ"⟩, List.replicate 16 0⟩]

def c8Bad : Filter := ⟨1, 15/100, 2/10⟩

def c8Good : Filter := ⟨1, 1/10, 4/10⟩

def c8WEmpty : Window := ⟨[], []⟩

def c9P : Params := ⟨1, 1, 8, 0, 0, false, ["ZZ"], .modeAll, true⟩

def c9Job : JobRef := ⟨"2020-01-01", "N.SA:N.SB", 1⟩

def c9F : Filter := ⟨1, 1/10, 4/10⟩

def c9BundleShort : List Trace := [⟨⟨"N", "SA", "00", "HHZ"⟩, List.replicate 4 0⟩]

/-! ## General lemmas about the embedded operations -/

theorem foldl_max_choice : ∀ (l : List Nat) (a : Nat),
    l.foldl max a = a ∨ l.foldl max a ∈ l := by
  intro l
  induction l with
  | nil => intro a; left; rfl
  | cons x t ih =>
    intro a
    rw [List.foldl_cons]
    rcases ih (max a x) with h | h
    · rw [h]
      rcases max_choice a x with h2 | h2
      · left; exact h2
      · right; rw [h2]; exact List.mem_cons_self x t
    · right; exact List.mem_cons_of_mem x h

theorem le_foldl_max : ∀ (l : List Nat) (a : Nat),
    a ≤ l.foldl max a ∧ ∀ x ∈ l, x ≤ l.foldl max a := by
  intro l
  induction l with
  | nil => intro a; exact ⟨le_refl a, by intro x hx; cases hx⟩
  | cons y t ih =>
    intro a
    rw [List.foldl_cons]
    refine ⟨le_trans (le_max_left a y) (ih (max a y)).1, ?_⟩
    intro x hx
    rcases List.mem_cons.mp hx with rfl | hxt
    · exact le_trans (le_max_right a x) (ih (max a x)).1
    · exact (ih (max a y)).2 x hxt

theorem maxNpts_mem (l : List Trace) (h : l ≠ []) :
    ∃ tr ∈ l, tr.npts = maxNpts l := by
  unfold maxNpts
  rcases foldl_max_choice (l.map Trace.npts) 0 with h0 | hm
  · obtain ⟨tr, t, rfl⟩ := List.exists_cons_of_ne_nil h
    refine ⟨tr, List.mem_cons_self tr t, ?_⟩
    have hle := (le_foldl_max ((tr :: t).map Trace.npts) 0).2 tr.npts
      (by simp)
    omega
  · obtain ⟨tr, htr, heq⟩ := List.mem_map.mp hm
    exact ⟨tr, htr, heq⟩

theorem ne_nil_of_isEmpty_false {α} {l : List α} (h : l.isEmpty = false) :
    l ≠ [] := by
  cases l with
  | nil => simp at h
  | cons a t => simp

theorem isEmpty_false_of_ne_nil {α} {l : List α} (h : l ≠ []) :
    l.isEmpty = false := by
  cases l with
  | nil => exact absurd rfl h
  | cons a t => rfl

/-! ## C1 -/

/-- C1: the whitening policy is evaluated per channel pair being
correlated: with whitening None the spectra pass through unmodified (no
channel of any pair is whitened); with All both channels of every pair are
whitened except when the pair is the auto-correlation of a channel with
itself; with Components-different the channels are whitened if and only if
the two component codes differ (a Z-Z pair is not whitened, a Z-N pair
is). -/
theorem c1_whitening_policy (c1 c2 : TraceId) :
    whitenPair WhiteningMode.modeNone c1 c2 = false ∧
    (whitenPair WhiteningMode.modeAll c1 c2 = true ↔ c1 ≠ c2) ∧
    (whitenPair WhiteningMode.componentsDifferent c1 c2 = true ↔
      c1.comp ≠ c2.comp) := by
  refine ⟨rfl, ?_, ?_⟩ <;> simp [whitenPair]

/-! ## C7 -/

/-- C7: the lag extraction of a window-level pair correlation always has
exactly 2*ceil(maxlag/dt)+1 samples, whatever the FFT length of the full
correlation was, as long as the full correlation can hold the requested
lag range. -/
theorem c7_paircorr_length (full : List ℚ) (maxlag dt : ℚ)
    (h : 2 * maxlagSamples maxlag dt + 1 ≤ full.length) :
    (extractLags full (maxlagSamples maxlag dt)).length =
      2 * maxlagSamples maxlag dt + 1 := by
  simp only [extractLags, List.length_take, List.length_drop]
  omega

/-- Witness for C7 at a concrete full correlation of length 7 with
maxlag = 2 s and dt = 1 s. -/
theorem c7_witness :
    (extractLags (List.replicate 7 (0 : ℚ)) (maxlagSamples 2 1)).length =
      2 * maxlagSamples 2 1 + 1 :=
  c7_paircorr_length (List.replicate 7 0) 2 1 (by decide)

/-! ## C10 -/

/-- C10: when the job claim returns an empty list the loop iteration
continues with no job-state change, no stacks and no exception, whatever
the day data would have been. -/
theorem c10_empty_claim (p : Params) (filters : List Filter)
    (bundle : List Trace) :
    loopIter p filters [] bundle = Except.ok ⟨[], [], []⟩ := rfl

/-! ## C3 -/

/-- C3: provided some channels survive the gap removal, the window is
discarded by the length stage if and only if the common sample count of
the surviving channels (the maximum sample count present) is not strictly
greater than 2*maxlag*sampling_rate+1, and when it is not discarded every
surviving channel has exactly that maximal sample count (shorter channels
are dropped rather than failing the window). -/
theorem c3_length_gate (p : Params) (w : Window) (h : removeGapped w ≠ []) :
    (afterGapStage p w = none ↔
      ((maxNpts (removeGapped w) : ℚ) ≤
        p.maxlag * p.goal_sampling_rate * 2 + 1)) ∧
    ∀ l, afterGapStage p w = some l →
      l ≠ [] ∧ ∀ tr ∈ l, tr.npts = maxNpts (removeGapped w) := by
  have h1 : (removeGapped w).isEmpty = false := isEmpty_false_of_ne_nil h
  by_cases hc : ((maxNpts (removeGapped w) : ℚ) ≤
      p.maxlag * p.goal_sampling_rate * 2 + 1)
  · constructor
    · rw [afterGapStage]
      simp [h1, hc]
    · intro l hl
      rw [afterGapStage] at hl
      simp [h1, hc] at hl
  · obtain ⟨tr, htr, heq⟩ := maxNpts_mem (removeGapped w) h
    have hmem2 : tr ∈ (removeGapped w).filter
        (fun tr => tr.npts == maxNpts (removeGapped w)) := by
      apply List.mem_filter.mpr ⟨htr, by simp [heq]⟩
    have h2 : ((removeGapped w).filter
        (fun tr => tr.npts == maxNpts (removeGapped w))).isEmpty = false :=
      isEmpty_false_of_ne_nil (List.ne_nil_of_mem hmem2)
    have hsome : afterGapStage p w = some ((removeGapped w).filter
        (fun tr => tr.npts == maxNpts (removeGapped w))) := by
      rw [afterGapStage]
      simp [h1, hc, h2]
    constructor
    · rw [hsome]
      simp [hc]
    · intro l hl
      rw [hsome] at hl
      have hl2 : (removeGapped w).filter
          (fun tr => tr.npts == maxNpts (removeGapped w)) = l := by
        injection hl
      subst hl2
      refine ⟨List.ne_nil_of_mem hmem2, ?_⟩
      intro tr2 htr2
      have := (List.mem_filter.mp htr2).2
      simpa using this

/-- Witness for C3 at a concrete window with one 9-sample channel and one
8-sample channel: the window is not discarded (9 > 2*1*1+1) and the
8-sample channel is dropped while the surviving channel holds 9 samples. -/
theorem c3_witness :
    (afterGapStage c3P c3W = none ↔
      ((maxNpts (removeGapped c3W) : ℚ) ≤
        c3P.maxlag * c3P.goal_sampling_rate * 2 + 1)) ∧
    c3TrA.npts = maxNpts (removeGapped c3W) := by
  have h := c3_length_gate c3P c3W (by decide)
  exact ⟨h.1, (h.2 [c3TrA] (by decide)).2 c3TrA (by simp)⟩

/-! ## C2 -/

/-- C2 (counterexample): a window holding two channels of which one is
gapped keeps exactly one channel, yet it is not discarded: with
auto-correlation enabled it still produces a correlation, refuting the
claim that a window with fewer than 2 surviving channels is discarded and
produces no correlations. -/
theorem c2_counterexample :
    (removeGapped c2W).length = 1 ∧
    processWindow c2P [c2F] c2W =
      Except.ok (some ⟨[c2IdB], [("N.SB_N.SB_ZZ", 0, 0)],
        [⟨1, 1, 4, 1, 3, ["N.SB_N.SB_ZZ"]⟩]⟩) ∧
    (["N.SB_N.SB_ZZ"] : List String) ≠ [] := by
  refine ⟨by decide, rfl, by decide⟩

/-- C2 (amended): every channel with a reported internal gap is dropped
entirely from the window (and nothing else is dropped at this stage, with
no interpolation); but the window is discarded only when zero channels
remain — with exactly one surviving channel the window proceeds, and can
still produce an auto-correlation. -/
theorem c2_gap_policy :
    (∀ w : Window, ∀ tr ∈ w.traces, tr.id ∈ gappedIds w →
      tr ∉ removeGapped w) ∧
    (∀ w : Window, ∀ tr ∈ removeGapped w, tr.id ∉ gappedIds w ∧
      tr ∈ w.traces) ∧
    (∀ (p : Params) (filters : List Filter) (w : Window),
      removeGapped w = [] → processWindow p filters w = Except.ok none) := by
  refine ⟨?_, ?_, ?_⟩
  · intro w tr _ hid hmem
    have h2 := (List.mem_filter.mp hmem).2
    simp at h2
    exact h2 hid
  · intro w tr htr
    have h2 := List.mem_filter.mp htr
    refine ⟨by simpa using h2.2, h2.1⟩
  · intro p filters w hrg
    rw [processWindow, afterGapStage]
    simp [hrg]

/-- Witness for C2: a gapped trace is indeed absent from the filtered
window, and a window whose only channel is gapped is skipped outright. -/
theorem c2_witness :
    (⟨c2IdA, List.replicate 9 (0 : ℚ)⟩ : Trace) ∉ removeGapped c2W ∧
    processWindow c2P [c2F] c2WAllGap = Except.ok none := by
  constructor
  · exact c2_gap_policy.1 c2W _ (by decide) (by decide)
  · exact c2_gap_policy.2.2 c2P [c2F] c2WAllGap (by decide)

/-! ## C9 -/

/-- C9 (counterexample): a nonempty bundle with fewer samples than one
correlation window does not take the immediate mark-Done branch: the jobs
end up Done through the normal path, which also enqueues STACK jobs,
unlike the immediate branch the claim describes. -/
theorem c9_counterexample :
    c9BundleShort ≠ [] ∧
    ((maxNpts c9BundleShort : ℚ) * c9P.dt < c9P.corr_duration) ∧
    processDay c9P [c9F] [c9Job] c9BundleShort =
      Except.ok ⟨[c9Job], [c9Job], []⟩ ∧
    (⟨[c9Job], [c9Job], []⟩ : DayOutcome) ≠ immediateDone [c9Job] := by
  refine ⟨by decide, by decide, rfl, by decide⟩

/-- C9 (amended): only a bundle with zero traces takes the immediate
branch (all jobs marked Done at once, no STACK enqueue, no stack, no
exception); a nonempty bundle shorter than one correlation window flows
through the normal path instead — it yields zero windows, hence no
DailyStack and no exception, the jobs are still marked Done at the end,
and a STACK job is enqueued per pair. -/
theorem c9_short_bundle :
    (∀ (p : Params) (filters : List Filter) (jobs : List JobRef),
      processDay p filters jobs [] = Except.ok (immediateDone jobs)) ∧
    (∀ (p : Params) (filters : List Filter) (jobs : List JobRef)
        (bundle : List Trace),
      bundle ≠ [] → (maxNpts bundle : ℚ) * p.dt < p.corr_duration →
      processDay p filters jobs bundle = Except.ok ⟨jobs, jobs, []⟩) := by
  constructor
  · intro p filters jobs; rfl
  · intro p filters jobs bundle hne hshort
    have hbe : bundle.isEmpty = false := isEmpty_false_of_ne_nil hne
    have hsw : slideWindows p bundle = [] := by
      rw [slideWindows, numWindows]
      rw [if_pos hshort]
      rfl
    rw [processDay, hsw]
    simp [hbe, mapE, List.eraseDups]
    exact fun _ => rfl

/-- Witness for C9: the amended theorem applied to the concrete short
bundle. -/
theorem c9_witness :
    processDay c9P [c9F] [c9Job] c9BundleShort =
      Except.ok ⟨[c9Job], [c9Job], []⟩ :=
  c9_short_bundle.2 c9P [c9F] [c9Job] c9BundleShort (by decide) (by decide)

/-! ## C8 -/

theorem mapE_ok_of_forall {α β} (f : α → Except String β) :
    ∀ l : List α, (∀ x ∈ l, ∃ y, f x = Except.ok y) →
      ∃ ys, mapE f l = Except.ok ys := by
  intro l
  induction l with
  | nil => intro _; exact ⟨[], rfl⟩
  | cons a t ih =>
    intro h
    obtain ⟨y, hy⟩ := h a (List.mem_cons_self a t)
    obtain ⟨ys, hys⟩ := ih (fun x hx => h x (List.mem_cons_of_mem a hx))
    exact ⟨y :: ys, by rw [mapE, hy, hys]⟩

theorem processFilterBand_ok (p : Params) (nfft : Nat) (f : Filter)
    (pairs : List (String × Nat × Nat))
    (h : freqSel nfft p.dt f.low f.high ≠ []) :
    ∃ y, processFilterBand p nfft f pairs = Except.ok y := by
  obtain ⟨a, t, hat⟩ := List.exists_cons_of_ne_nil h
  rw [processFilterBand, hat]
  exact ⟨_, rfl⟩

theorem processWindow_ok (p : Params) (filters : List Filter) (w : Window)
    (h : windowBandsOk p filters w = true) :
    ∃ r, processWindow p filters w = Except.ok r := by
  cases hgap : afterGapStage p w with
  | none => exact ⟨none, by rw [processWindow, hgap]⟩
  | some tmp =>
    rw [windowBandsOk, hgap] at h
    have hall := List.all_eq_true.mp h
    have hok : ∀ f ∈ filters, ∃ y,
        processFilterBand p (next_fast_len (tmp.headD dTr).npts) f
          (pairIndex p.autocorr p.components_to_compute (tmp.map Trace.id)) =
          Except.ok y := by
      intro f hf
      apply processFilterBand_ok
      apply ne_nil_of_isEmpty_false
      have := hall f hf
      simpa using this
    obtain ⟨rs, hrs⟩ := mapE_ok_of_forall _ filters hok
    refine ⟨some ⟨tmp.map Trace.id,
      pairIndex p.autocorr p.components_to_compute (tmp.map Trace.id), rs⟩, ?_⟩
    rw [processWindow, hgap]
    dsimp only
    rw [hrs]

theorem processDay_ok (p : Params) (filters : List Filter)
    (jobs : List JobRef) (bundle : List Trace)
    (h : (slideWindows p bundle).all (windowBandsOk p filters) = true) :
    ∃ o, processDay p filters jobs bundle = Except.ok o := by
  cases hbe : bundle.isEmpty with
  | true => exact ⟨_, by rw [processDay, hbe]; rfl⟩
  | false =>
    have hall := List.all_eq_true.mp h
    obtain ⟨rs, hrs⟩ := mapE_ok_of_forall (processWindow p filters)
      (slideWindows p bundle)
      (fun w hw => processWindow_ok p filters w (hall w hw))
    exact ⟨_, by rw [processDay, hbe, hrs]; rfl⟩

theorem loopIter_ok (p : Params) (filters : List Filter)
    (jobs : List JobRef) (bundle : List Trace)
    (h : (slideWindows p bundle).all (windowBandsOk p filters) = true) :
    ∃ o, loopIter p filters jobs bundle = Except.ok o := by
  cases hje : jobs.isEmpty with
  | true => exact ⟨_, by rw [loopIter, hje]; rfl⟩
  | false =>
    obtain ⟨o, ho⟩ := processDay_ok p filters jobs bundle h
    exact ⟨o, by rw [loopIter, hje, ho]; rfl⟩

/-- C8 (counterexample): with one filter band configured that selects no
FFT bin for the processed windows ([0.15, 0.2] Hz against the bin grid of
a 9-point FFT at 1 Hz), the run aborts with an uncaught IndexError even
though filter bands are defined — refuting the claim that the only abort
condition is having no filter bands. -/
theorem c8_counterexample :
    ([c8Bad] : List Filter) ≠ [] ∧
    runMain c8P [c8Bad] [([c8Job], c8Bundle)] =
      Except.error "IndexError: freq_sel is empty" := by
  refine ⟨by decide, rfl⟩

/-- C8 (amended): a run with no filter bands aborts before any job is
claimed, whatever the pending jobs are; gap, shortness and emptiness
problems of a window are handled locally as a silent skip; and when every
configured filter band selects at least one FFT bin for every window that
reaches the filter loop, nothing aborts the run — the remaining abort
condition is a filter band whose frequency selection is empty for some
window, which raises an uncaught IndexError. -/
theorem c8_abort_conditions :
    (∀ (p : Params) (batches : List (List JobRef × List Trace)),
      runMain p [] batches = Except.error "NO FILTERS DEFINED, exiting") ∧
    (∀ (p : Params) (filters : List Filter) (w : Window),
      afterGapStage p w = none → processWindow p filters w = Except.ok none) ∧
    (∀ (p : Params) (filters : List Filter)
        (batches : List (List JobRef × List Trace)),
      filters ≠ [] →
      batches.all
        (fun b => (slideWindows p b.2).all (windowBandsOk p filters)) = true →
      ∃ outs, runMain p filters batches = Except.ok outs) := by
  refine ⟨fun p batches => rfl, ?_, ?_⟩
  · intro p filters w h
    rw [processWindow, h]
  · intro p filters batches hne hall
    have hfe : filters.isEmpty = false := isEmpty_false_of_ne_nil hne
    have hb := List.all_eq_true.mp hall
    obtain ⟨outs, houts⟩ := mapE_ok_of_forall
      (fun b => loopIter p filters b.1 b.2) batches
      (fun b hbmem => loopIter_ok p filters b.1 b.2 (hb b hbmem))
    exact ⟨outs, by rw [runMain, hfe]; simpa using houts⟩

/-- Witness for C8: the local-skip clause applied to a window with no
traces, and the no-abort clause applied to a usable filter band on the
concrete day batch. -/
theorem c8_witness :
    processWindow c8P [c8Bad] c8WEmpty = Except.ok none ∧
    ∃ outs, runMain c8P [c8Good] [([c8Job], c8Bundle)] = Except.ok outs := by
  constructor
  · exact c8_abort_conditions.2.1 c8P [c8Bad] c8WEmpty rfl
  · exact c8_abort_conditions.2.2 c8P [c8Good] [([c8Job], c8Bundle)]
      (by decide) (by decide)

/-! ## C4 -/

theorem sum_map_sq_expand (l : List ℚ) (m : ℚ) :
    (l.map (fun x => (x - m) ^ 2)).sum =
      (l.map (fun x => x ^ 2)).sum - 2 * m * l.sum + (l.length : ℚ) * m ^ 2 := by
  induction l with
  | nil => simp
  | cons x t ih =>
    simp only [List.map_cons, List.sum_cons, ih, List.length_cons]
    push_cast
    ring

theorem lvar_le_lmeanSq (l : List ℚ) : lvar l ≤ lmeanSq l := by
  rcases eq_or_ne l [] with h | h
  · subst h; simp [lvar, lmeanSq]
  · have hn : (l.length : ℚ) ≠ 0 :=
      Nat.cast_ne_zero.mpr (fun h0 => h (List.length_eq_zero.mp h0))
    have hv : lvar l = lmeanSq l - (lmean l) ^ 2 := by
      unfold lvar lmeanSq lmean
      rw [sum_map_sq_expand]
      field_simp
      ring
    rw [hv]
    have := sq_nonneg (lmean l)
    linarith

/-- C4: amplitude normalisation per channel per window: with
windsorizing = -1 every sample is replaced by its sign; with
windsorizing = 0 the samples are unchanged; with windsorizing = k > 0
every sample is clipped, so that afterwards every sample magnitude is at
most k times the RMS of the samples inside the 1st-99th percentile band
computed before clipping (the source clips at k times the standard
deviation of that band, which never exceeds k times its RMS). -/
theorem c4_windsorizing (w t : ℚ) (data : List ℚ) :
    (w = -1 → windsorize w t data = data.map qsign) ∧
    (w = 0 → windsorize w t data = data) ∧
    (0 < w → 0 ≤ t → t ^ 2 = w ^ 2 * lvar (bandSamples data) →
      ∀ y ∈ windsorize w t data,
        y ^ 2 ≤ w ^ 2 * lmeanSq (bandSamples data)) := by
  refine ⟨?_, ?_, ?_⟩
  · intro h; simp [windsorize, h]
  · intro h; subst h; simp [windsorize]
  · intro hw ht ht2 y hy
    have hw1 : w ≠ -1 := by intro h; rw [h] at hw; linarith
    have hw0 : w ≠ 0 := ne_of_gt hw
    rw [windsorize, if_neg hw1, if_pos hw0] at hy
    obtain ⟨x, _, rfl⟩ := List.mem_map.mp hy
    have h1 : -t ≤ clipTo t x := le_max_left _ _
    have h2 : clipTo t x ≤ t := max_le (by linarith) (min_le_right _ _)
    have h3 : (clipTo t x) ^ 2 ≤ t ^ 2 := sq_le_sq' h1 h2
    rw [ht2] at h3
    exact h3.trans (mul_le_mul_of_nonneg_left (lvar_le_lmeanSq _) (sq_nonneg w))

/-- Witness for C4 with data [3, -3, 3, -3]: the percentile band keeps all
four samples, whose variance is the perfect square 9, so the clip
threshold is t = 3 = 1 * std, and the first clipped sample satisfies the
RMS bound. -/
theorem c4_witness :
    ((windsorize 1 3 c4Data).getD 0 0) ^ 2 ≤
      1 ^ 2 * lmeanSq (bandSamples c4Data) := by
  have h := (c4_windsorizing 1 3 c4Data).2.2 (by norm_num) (by norm_num)
    (by decide)
  exact h _ (by decide)

/-! ## C6 -/

theorem mem_pairsTwo {α} {x y : α} :
    ∀ l : List α, ((x, y) ∈ pairsTwo l ↔
      ∃ i j, i < j ∧ l.get? i = some x ∧ l.get? j = some y) := by
  intro l
  induction l with
  | nil =>
    simp only [pairsTwo, List.not_mem_nil, false_iff]
    rintro ⟨i, j, _, h, _⟩
    simp at h
  | cons a t ih =>
    simp only [pairsTwo, List.mem_append, List.mem_map, Prod.mk.injEq]
    constructor
    · rintro (⟨b, hb, rfl, rfl⟩ | h)
      · obtain ⟨j, hj⟩ := List.mem_iff_get?.mp hb
        exact ⟨0, j + 1, Nat.succ_pos j, rfl, by simpa using hj⟩
      · obtain ⟨i, j, hij, hx, hy⟩ := ih.mp h
        exact ⟨i + 1, j + 1, Nat.succ_lt_succ hij,
          by simpa using hx, by simpa using hy⟩
    · rintro ⟨i, j, hij, hx, hy⟩
      cases i with
      | zero =>
        left
        cases j with
        | zero => omega
        | succ j =>
          simp only [List.get?_cons_zero, Option.some.injEq] at hx
          simp only [List.get?_cons_succ] at hy
          exact ⟨y, List.get?_mem hy, hx, rfl⟩
      | succ i =>
        right
        cases j with
        | zero => omega
        | succ j =>
          simp only [List.get?_cons_succ] at hx hy
          exact ih.mpr ⟨i, j, by omega, hx, hy⟩

theorem mem_pairsTwoR {α} {x y : α} :
    ∀ l : List α, ((x, y) ∈ pairsTwoR l ↔
      ∃ i j, i ≤ j ∧ l.get? i = some x ∧ l.get? j = some y) := by
  intro l
  induction l with
  | nil =>
    simp only [pairsTwoR, List.not_mem_nil, false_iff]
    rintro ⟨i, j, _, h, _⟩
    simp at h
  | cons a t ih =>
    simp only [pairsTwoR, List.mem_append, List.mem_map, Prod.mk.injEq]
    constructor
    · rintro (⟨b, hb, rfl, rfl⟩ | h)
      · obtain ⟨j, hj⟩ := List.mem_iff_get?.mp hb
        exact ⟨0, j, Nat.zero_le j, rfl, hj⟩
      · obtain ⟨i, j, hij, hx, hy⟩ := ih.mp h
        exact ⟨i + 1, j + 1, Nat.succ_le_succ hij,
          by simpa using hx, by simpa using hy⟩
    · rintro ⟨i, j, hij, hx, hy⟩
      cases i with
      | zero =>
        left
        simp only [List.get?_cons_zero, Option.some.injEq] at hx
        exact ⟨y, List.get?_mem hy, hx, rfl⟩
      | succ i =>
        right
        cases j with
        | zero => omega
        | succ j =>
          simp only [List.get?_cons_succ] at hx hy
          exact ih.mpr ⟨i, j, by omega, hx, hy⟩

theorem nodup_indexOf_eq {α} [DecidableEq α] :
    ∀ (l : List α) (i : Nat) (u : α), l.Nodup → l.get? i = some u →
      l.indexOf u = i := by
  intro l
  induction l with
  | nil => intro i u _ h; simp at h
  | cons a t ih =>
    intro i u hnd h
    cases i with
    | zero =>
      simp only [List.get?_cons_zero, Option.some.injEq] at h
      subst h
      simp
    | succ i =>
      simp only [List.get?_cons_succ] at h
      have hmem : u ∈ t := List.get?_mem h
      have hne : a ≠ u := by
        rintro rfl
        exact (List.nodup_cons.mp hnd).1 hmem
      rw [List.indexOf_cons_ne _ hne, ih i u (List.nodup_cons.mp hnd).2 h]

/-- C6: provided the surviving channel names are distinct, the pair index
of a window contains exactly the unordered 2-element combinations of the
names — including a name paired with itself precisely when
auto-correlation is enabled — restricted to those whose two-letter
component string is among components_to_compute; each entry carries the
pair key and the positions of the two names, and no other pair is
selected. -/
theorem c6_pair_selection (autocorr : Bool) (comps : List String)
    (names : List TraceId) (hnd : names.Nodup) (k : String) (i j : Nat) :
    (k, i, j) ∈ pairIndex autocorr comps names ↔
      ∃ u v, names.get? i = some u ∧ names.get? j = some v ∧
        (autocorr = true → i ≤ j) ∧ (autocorr = false → i < j) ∧
        compStr u v ∈ comps ∧ k = pairKey u v := by
  unfold pairIndex
  cases autocorr with
  | false =>
    rw [if_neg (by simp)]
    rw [List.mem_filterMap]
    constructor
    · rintro ⟨⟨u, v⟩, huv, hf⟩
      by_cases hc : compStr u v ∈ comps
      · rw [if_pos hc] at hf
        simp only [Option.some.injEq, Prod.mk.injEq] at hf
        obtain ⟨hk, hi2, hj2⟩ := hf
        obtain ⟨i0, j0, hij, hx, hy⟩ := (mem_pairsTwo names).mp huv
        have hiu : names.indexOf u = i0 := nodup_indexOf_eq names i0 u hnd hx
        have hjv : names.indexOf v = j0 := nodup_indexOf_eq names j0 v hnd hy
        refine ⟨u, v, ?_, ?_, by simp, ?_, hc, hk.symm⟩
        · rw [← hi2, hiu]; exact hx
        · rw [← hj2, hjv]; exact hy
        · intro _
          rw [← hi2, ← hj2, hiu, hjv]
          exact hij
      · rw [if_neg hc] at hf
        cases hf
    · rintro ⟨u, v, hu, hv, _, hlt, hc, rfl⟩
      refine ⟨(u, v), (mem_pairsTwo names).mpr ⟨i, j, hlt rfl, hu, hv⟩, ?_⟩
      rw [if_pos hc, nodup_indexOf_eq names i u hnd hu,
        nodup_indexOf_eq names j v hnd hv]
  | true =>
    rw [if_pos rfl]
    rw [List.mem_filterMap]
    constructor
    · rintro ⟨⟨u, v⟩, huv, hf⟩
      by_cases hc : compStr u v ∈ comps
      · rw [if_pos hc] at hf
        simp only [Option.some.injEq, Prod.mk.injEq] at hf
        obtain ⟨hk, hi2, hj2⟩ := hf
        obtain ⟨i0, j0, hij, hx, hy⟩ := (mem_pairsTwoR names).mp huv
        have hiu : names.indexOf u = i0 := nodup_indexOf_eq names i0 u hnd hx
        have hjv : names.indexOf v = j0 := nodup_indexOf_eq names j0 v hnd hy
        refine ⟨u, v, ?_, ?_, ?_, by simp, hc, hk.symm⟩
        · rw [← hi2, hiu]; exact hx
        · rw [← hj2, hjv]; exact hy
        · intro _
          rw [← hi2, ← hj2, hiu, hjv]
          exact hij
      · rw [if_neg hc] at hf
        cases hf
    · rintro ⟨u, v, hu, hv, hle, _, hc, rfl⟩
      refine ⟨(u, v), (mem_pairsTwoR names).mpr ⟨i, j, hle rfl, hu, hv⟩, ?_⟩
      rw [if_pos hc, nodup_indexOf_eq names i u hnd hu,
        nodup_indexOf_eq names j v hnd hv]

/-- Witness for C6: the Z-channel of station S1 paired with the N-channel
of station S2 is selected at positions (0, 1) when ZN is configured. -/
theorem c6_witness :
    ("N.S1_N.S2_ZN", 0, 1) ∈ pairIndex false ["ZN"] c6Names := by
  refine (c6_pair_selection false ["ZN"] c6Names (by decide)
    "N.S1_N.S2_ZN" 0 1).mpr ?_
  exact ⟨⟨"N", "S1", "00", "HHZ"⟩, ⟨"N", "S2", "00", "HHN"⟩,
    rfl, rfl, fun _ => Nat.zero_le 1, fun _ => Nat.zero_lt_one, by decide,
    by decide⟩

/-! ## C5 -/

theorem getLast?_mem_own {α} : ∀ (l : List α) (a : α),
    l.getLast? = some a → a ∈ l := by
  intro l
  induction l with
  | nil => intro a h; cases h
  | cons x t ih =>
    intro a h
    cases t with
    | nil =>
      simp only [List.getLast?_singleton, Option.some.injEq] at h
      subst h
      exact List.mem_cons_self _ _
    | cons y t2 =>
      rw [List.getLast?_cons_cons] at h
      exact List.mem_cons_of_mem x (ih a h)

theorem getLast?_eq_of_all {α} : ∀ (l : List α) (a : α),
    a ∈ l → (∀ b ∈ l, b = a) → l.getLast? = some a := by
  intro l
  induction l with
  | nil => intro a h; cases h
  | cons x t ih =>
    intro a hmem hall
    cases t with
    | nil =>
      have hx : x = a := hall x (List.mem_cons_self x [])
      subst hx
      rfl
    | cons y t2 =>
      rw [List.getLast?_cons_cons]
      apply ih
      · have hy : y = a := hall y (by simp)
        rw [← hy]
        exact List.mem_cons_self y t2
      · intro b hb
        exact hall b (List.mem_cons_of_mem x hb)

theorem lastCompIdx_spec (names : List TraceId) (ns : String) (c : Char)
    (i : Nat) (h : lastCompIdx names ns c = some i) :
    i < names.length ∧ (names.getD i dId).netsta = ns ∧
      (names.getD i dId).comp = c := by
  have hmem := getLast?_mem_own _ _ h
  have h2 := List.mem_filter.mp hmem
  have h3 := List.mem_range.mp h2.1
  have h4 := h2.2
  simp only [Bool.and_eq_true, decide_eq_true_eq] at h4
  exact ⟨h3, h4.1, h4.2⟩

theorem lastCompIdx_eq (names : List TraceId) (ns : String) (c : Char)
    (i : Nat) (hi : i < names.length)
    (hns : (names.getD i dId).netsta = ns)
    (hc : (names.getD i dId).comp = c)
    (hU : ∀ a b, a < names.length → b < names.length →
      (names.getD a dId).netsta = (names.getD b dId).netsta →
      (names.getD a dId).comp = (names.getD b dId).comp → a = b) :
    lastCompIdx names ns c = some i := by
  apply getLast?_eq_of_all
  · refine List.mem_filter.mpr ⟨List.mem_range.mpr hi, ?_⟩
    simp only [Bool.and_eq_true, decide_eq_true_eq]
    exact ⟨hns, hc⟩
  · intro b hb
    have h2 := List.mem_filter.mp hb
    have hbl := List.mem_range.mp h2.1
    have h4 := h2.2
    simp only [Bool.and_eq_true, decide_eq_true_eq] at h4
    exact hU b i hbl hi (by rw [h4.1, hns]) (by rw [h4.2, hc])

theorem poolStation_length (ps : List (List ℚ)) (ie iN : Nat) :
    (poolStation ps ie iN).length = ps.length := by
  simp [poolStation]

theorem poolStation_getD_ne (ps : List (List ℚ)) (ie iN j : Nat)
    (h1 : j ≠ ie) (h2 : j ≠ iN) :
    (poolStation ps ie iN).getD j [] = ps.getD j [] := by
  simp only [poolStation, List.getD_eq_getElem?_getD]
  rw [List.getElem?_set_ne (Ne.symm h2), List.getElem?_set_ne (Ne.symm h1)]

theorem poolStation_getD_hit (ps : List (List ℚ)) (ie iN : Nat)
    (hie : ie < ps.length) (hiN : iN < ps.length) (hne : ie ≠ iN) :
    (poolStation ps ie iN).getD ie [] =
      specMean (ps.getD ie []) (ps.getD iN []) ∧
    (poolStation ps ie iN).getD iN [] =
      specMean (ps.getD ie []) (ps.getD iN []) := by
  constructor
  · simp only [poolStation, List.getD_eq_getElem?_getD]
    rw [List.getElem?_set_ne hne.symm,
      List.getElem?_set_self (by simpa using hie)]
    rfl
  · simp only [poolStation, List.getD_eq_getElem?_getD]
    rw [List.getElem?_set_self (by simpa using hiN)]
    rfl

theorem poolStep_length (names : List TraceId) (ps : List (List ℚ))
    (ns : String) : (poolStep names ps ns).length = ps.length := by
  rw [poolStep]
  cases lastCompIdx names ns 'E' with
  | none => rfl
  | some ie =>
    cases lastCompIdx names ns 'N' with
    | none => rfl
    | some iN => exact poolStation_length ps ie iN

theorem poolStep_getD_ne_sta (names : List TraceId) (ps : List (List ℚ))
    (ns : String) (j : Nat) (h : (names.getD j dId).netsta ≠ ns) :
    (poolStep names ps ns).getD j [] = ps.getD j [] := by
  rw [poolStep]
  cases hE : lastCompIdx names ns 'E' with
  | none => rfl
  | some ie =>
    cases hN : lastCompIdx names ns 'N' with
    | none => rfl
    | some iN =>
      have hsE := lastCompIdx_spec names ns 'E' ie hE
      have hsN := lastCompIdx_spec names ns 'N' iN hN
      apply poolStation_getD_ne
      · intro hji
        exact h (hji ▸ hsE.2.1)
      · intro hji
        exact h (hji ▸ hsN.2.1)

theorem poolStep_getD_ne_comp (names : List TraceId) (ps : List (List ℚ))
    (ns : String) (j : Nat) (h1 : (names.getD j dId).comp ≠ 'E')
    (h2 : (names.getD j dId).comp ≠ 'N') :
    (poolStep names ps ns).getD j [] = ps.getD j [] := by
  rw [poolStep]
  cases hE : lastCompIdx names ns 'E' with
  | none => rfl
  | some ie =>
    cases hN : lastCompIdx names ns 'N' with
    | none => rfl
    | some iN =>
      have hsE := lastCompIdx_spec names ns 'E' ie hE
      have hsN := lastCompIdx_spec names ns 'N' iN hN
      apply poolStation_getD_ne
      · intro hji
        exact h1 (hji ▸ hsE.2.2)
      · intro hji
        exact h2 (hji ▸ hsN.2.2)

theorem foldPool_length (names : List TraceId) : ∀ (sl : List String)
    (ps : List (List ℚ)),
    (sl.foldl (poolStep names) ps).length = ps.length := by
  intro sl
  induction sl with
  | nil => intro ps; rfl
  | cons a t ih =>
    intro ps
    rw [List.foldl_cons, ih, poolStep_length]

theorem foldPool_getD_ne_sta (names : List TraceId) (j : Nat) :
    ∀ (sl : List String) (ps : List (List ℚ)),
    (∀ ns ∈ sl, (names.getD j dId).netsta ≠ ns) →
    (sl.foldl (poolStep names) ps).getD j [] = ps.getD j [] := by
  intro sl
  induction sl with
  | nil => intro ps _; rfl
  | cons a t ih =>
    intro ps h
    rw [List.foldl_cons, ih _ (fun ns hns => h ns (List.mem_cons_of_mem a hns)),
      poolStep_getD_ne_sta names ps a j (h a (List.mem_cons_self a t))]

theorem foldPool_getD_ne_comp (names : List TraceId) (j : Nat)
    (h1 : (names.getD j dId).comp ≠ 'E') (h2 : (names.getD j dId).comp ≠ 'N') :
    ∀ (sl : List String) (ps : List (List ℚ)),
    (sl.foldl (poolStep names) ps).getD j [] = ps.getD j [] := by
  intro sl
  induction sl with
  | nil => intro ps; rfl
  | cons a t ih =>
    intro ps
    rw [List.foldl_cons, ih, poolStep_getD_ne_comp names ps a j h1 h2]

theorem foldPool_pooled (names : List TraceId) (s : String) (ie iN : Nat)
    (hE : lastCompIdx names s 'E' = some ie)
    (hN : lastCompIdx names s 'N' = some iN) (hne : ie ≠ iN) :
    ∀ (sl : List String) (ps : List (List ℚ)), sl.Nodup → s ∈ sl →
    ie < ps.length → iN < ps.length →
    ((sl.foldl (poolStep names) ps).getD ie [] =
        specMean (ps.getD ie []) (ps.getD iN []) ∧
      (sl.foldl (poolStep names) ps).getD iN [] =
        specMean (ps.getD ie []) (ps.getD iN [])) := by
  have hsE := lastCompIdx_spec names s 'E' ie hE
  have hsN := lastCompIdx_spec names s 'N' iN hN
  intro sl
  induction sl with
  | nil => intro ps _ hs; cases hs
  | cons a t ih =>
    intro ps hnd hs hie hiN
    rw [List.foldl_cons]
    rcases List.mem_cons.mp hs with rfl | hst
    · have hstep : poolStep names ps s = poolStation ps ie iN := by
        rw [poolStep, hE, hN]
      rw [hstep]
      have hnotin : s ∉ t := (List.nodup_cons.mp hnd).1
      have key := poolStation_getD_hit ps ie iN hie hiN hne
      have huE : ∀ ns ∈ t, (names.getD ie dId).netsta ≠ ns := by
        intro ns hns heq
        apply hnotin
        rw [← heq, hsE.2.1] at hns
        exact hns
      have huN : ∀ ns ∈ t, (names.getD iN dId).netsta ≠ ns := by
        intro ns hns heq
        apply hnotin
        rw [← heq, hsN.2.1] at hns
        exact hns
      rw [foldPool_getD_ne_sta names ie t _ huE,
        foldPool_getD_ne_sta names iN t _ huN]
      exact key
    · have hsa : a ≠ s := by
        rintro rfl
        exact (List.nodup_cons.mp hnd).1 hst
      have e1 : (poolStep names ps a).getD ie [] = ps.getD ie [] :=
        poolStep_getD_ne_sta names ps a ie (by rw [hsE.2.1]; exact hsa.symm)
      have e2 : (poolStep names ps a).getD iN [] = ps.getD iN [] :=
        poolStep_getD_ne_sta names ps a iN (by rw [hsN.2.1]; exact hsa.symm)
      have hlen := poolStep_length names ps a
      have := ih (poolStep names ps a) (List.nodup_cons.mp hnd).2 hst
        (by omega) (by omega)
      rw [e1, e2] at this
      exact this

/-- C5: for every station having exactly one E and one N horizontal
channel in the window, the pooled psds hold the element-wise mean of the
two original amplitude spectra at both positions (both horizontals are
whitened with the same shared magnitude), while the spectrum of any
Z (vertical) channel is left exactly as it was. -/
theorem c5_horizontal_pooling (names : List TraceId) (psds : List (List ℚ))
    (hlen : psds.length = names.length)
    (hU : ∀ a b, a < names.length → b < names.length →
      (names.getD a dId).netsta = (names.getD b dId).netsta →
      (names.getD a dId).comp = (names.getD b dId).comp → a = b)
    (ie iN : Nat) (hie : ie < names.length) (hiN : iN < names.length)
    (hsta : (names.getD ie dId).netsta = (names.getD iN dId).netsta)
    (hE : (names.getD ie dId).comp = 'E')
    (hN : (names.getD iN dId).comp = 'N') :
    (poolPsds names psds).getD ie [] =
      specMean (psds.getD ie []) (psds.getD iN []) ∧
    (poolPsds names psds).getD iN [] =
      specMean (psds.getD ie []) (psds.getD iN []) ∧
    ∀ j, (names.getD j dId).comp = 'Z' →
      (poolPsds names psds).getD j [] = psds.getD j [] := by
  have hne : ie ≠ iN := by
    rintro rfl
    rw [hE] at hN
    cases hN
  have hEidx : lastCompIdx names ((names.getD ie dId).netsta) 'E' = some ie :=
    lastCompIdx_eq names _ 'E' ie hie rfl hE hU
  have hNidx : lastCompIdx names ((names.getD ie dId).netsta) 'N' = some iN :=
    lastCompIdx_eq names _ 'N' iN hiN hsta.symm hN hU
  have hmem : (names.getD ie dId).netsta ∈ (names.map TraceId.netsta).dedup := by
    rw [List.mem_dedup]
    apply List.mem_map.mpr
    refine ⟨names.getD ie dId, ?_, rfl⟩
    rw [List.getD_eq_getElem?_getD, List.getElem?_eq_getElem hie]
    exact List.getElem_mem hie
  have hpool := foldPool_pooled names _ ie iN hEidx hNidx hne
    ((names.map TraceId.netsta).dedup) psds (List.nodup_dedup _) hmem
    (by omega) (by omega)
  refine ⟨hpool.1, hpool.2, ?_⟩
  intro j hj
  apply foldPool_getD_ne_comp
  · rw [hj]; decide
  · rw [hj]; decide

/-- Witness for C5 on a three-channel station (HHE, HHN, HHZ) with
spectra [1], [3], [5]: both horizontals become their mean [2] and the
vertical spectrum [5] is untouched. -/
theorem c5_witness :
    (poolPsds c5Names c5Psds).getD 0 [] = [2] ∧
    (poolPsds c5Names c5Psds).getD 2 [] = [5] := by
  have h := c5_horizontal_pooling c5Names c5Psds (by decide)
    (by
      intro a b ha hb
      have ha3 : a < 3 := by simpa [c5Names] using ha
      have hb3 : b < 3 := by simpa [c5Names] using hb
      interval_cases a <;> interval_cases b <;> decide)
    0 1 (by decide) (by decide) (by decide) (by decide) (by decide)
  exact ⟨h.1.trans (by decide), (h.2.2 2 (by decide)).trans (by decide)⟩

end MSNoise
